/-
Verification of the analytics-service batch orchestration and forecasting
engine.  The Python source (app/services/forecasting_service.py,
app/scheduler/batch_processor.py, app/config.py) is shallowly embedded:
dates become integers (day numbers), Decimal/float values become rationals
(with real arithmetic where NumPy's `exp` enters), and the two-decimal
rounding of `round(x, 2)` is modelled as `⌊100·x + 1/2⌋ / 100`.
-/
import Mathlib

namespace AnalyticsService

/-- Forecasting configuration, mirroring the fields `ForecastingService.__init__`
copies out of `config` (app/config.py defaults shown in `defaultCfg`). -/
structure Cfg where
  movingAverageWindow : ℕ
  enableLinearRegression : Bool
  enableEnsemble : Bool
  alpha : ℚ
  beta : ℚ
  seasonalPeriods : ℕ
  polynomialDegree : ℕ
  outlierDetection : Bool
deriving Repr, DecidableEq

/-- The defaults of `ForecastingConfig` in app/config.py. -/
def defaultCfg : Cfg :=
  { movingAverageWindow := 7
    enableLinearRegression := true
    enableEnsemble := true
    alpha := 3/10
    beta := 1/10
    seasonalPeriods := 7
    polynomialDegree := 2
    outlierDetection := true }

/-- Two-decimal rounding of `Decimal(str(round(x, 2)))` on a rational. -/
def round2 (q : ℚ) : ℚ := (⌊q * 100 + 1/2⌋ : ℚ) / 100

/-- Two-decimal rounding applied to a real intermediate (the NumPy dot
products involve `exp`, hence leave ℚ); the result is again rational. -/
noncomputable def round2R (x : ℝ) : ℚ := (⌊x * 100 + 1/2⌋ : ℚ) / 100

/-- A historical point `(date, value)`: day number and revenue. -/
abbrev HistPoint := ℤ × ℚ

/-- `sorted(historical_data, key=lambda x: x[0])` — stable sort by date. -/
def sortByDate (data : List HistPoint) : List HistPoint :=
  data.insertionSort (fun a b => a.1 ≤ b.1)

/-- `np.percentile(data, q)` with the default linear-interpolation method:
sort ascending, take position `(q/100)·(n−1)` and interpolate between the
two bracketing order statistics. -/
def percentile (data : List ℚ) (q : ℚ) : ℚ :=
  let s := data.insertionSort (fun a b => a ≤ b)
  let n := s.length
  if n = 0 then 0
  else
    let pos : ℚ := q / 100 * ((n : ℚ) - 1)
    let lo : ℕ := pos.floor.toNat
    let frac : ℚ := pos - (lo : ℚ)
    let a := s.getD lo 0
    if lo + 1 < n then a + (s.getD (lo + 1) 0 - a) * frac else a

/-- `ForecastingService._remove_outliers`: IQR filter that replaces values
outside `[Q1 − 1.5·IQR, Q3 + 1.5·IQR]` by the sample median (`np.median`,
i.e. the 50th percentile).  Disabled detection or fewer than 4 samples
returns the input unchanged. -/
def removeOutliers (cfg : Cfg) (data : List ℚ) : List ℚ :=
  if ¬cfg.outlierDetection ∨ data.length < 4 then data
  else
    let q1 := percentile data 25
    let q3 := percentile data 75
    let iqr := q3 - q1
    let lowerBound := q1 - 3/2 * iqr
    let upperBound := q3 + 3/2 * iqr
    let med := percentile data 50
    data.map (fun x => if lowerBound ≤ x ∧ x ≤ upperBound then x else med)

/-- The exception handler of `_remove_outliers` returns the input unchanged;
`fail` injects an environment-triggered internal failure. -/
def removeOutliersRun (fail : Bool) (cfg : Cfg) (data : List ℚ) : List ℚ :=
  if fail then data else removeOutliers cfg data

/-- One step of the Holt recurrence in `exponential_smoothing_forecast`:
`new_level = α·v + (1−α)·(level+trend)`;
`trend = β·(new_level−last_level) + (1−β)·trend`. -/
def holtStep (cfg : Cfg) (lt : ℚ × ℚ) (v : ℚ) : ℚ × ℚ :=
  let newLevel := cfg.alpha * v + (1 - cfg.alpha) * (lt.1 + lt.2)
  (newLevel, cfg.beta * (newLevel - lt.1) + (1 - cfg.beta) * lt.2)

/-- `ForecastingService.exponential_smoothing_forecast` (double exponential
smoothing).  Sorts by date, filters outliers, and with fewer than two
remaining values returns the single value (or 0) rounded; otherwise folds
the Holt recurrence over the values from the second onward and returns
`max(0, level+trend)` rounded to two decimals. -/
def exponentialSmoothingForecast (cfg : Cfg) (data : List HistPoint) : ℚ :=
  if data.isEmpty then 0
  else
    let values0 := (sortByDate data).map (·.2)
    let values := removeOutliers cfg values0
    if values.length < 2 then round2 (values.headD 0)
    else
      let level0 := values.headD 0
      let trend0 := if 1 < values.length then values.getD 1 0 - values.getD 0 0 else 0
      let lt := (values.drop 1).foldl (holtStep cfg) (level0, trend0)
      round2 (max 0 (lt.1 + lt.2))

/-- Python's slice `l[-w:]` (note that `l[-0:]` is the whole list). -/
def takeLastPy {α : Type} (w : ℕ) (l : List α) : List α :=
  if w = 0 then l else l.drop (l.length - w)

/-- The sample positions of `np.linspace(0, 1, n)`: `i/(n−1)` for `i < n`
(for `n = 1` NumPy yields `[0]`, matched here by `0/0 = 0`). -/
def linspace01 (n : ℕ) : List ℚ :=
  (List.range n).map (fun i => (i : ℚ) / ((n : ℚ) - 1))

/-- `np.exp(np.linspace(0, 1, n))`: the raw exponential weights. -/
noncomputable def expWeights (n : ℕ) : List ℝ :=
  (linspace01 n).map (fun t => Real.exp (t : ℝ))

/-- `np.dot` of a rational value vector against a real weight vector. -/
noncomputable def dotR (xs : List ℚ) (ws : List ℝ) : ℝ :=
  (List.zipWith (fun x w => (x : ℝ) * w) xs ws).sum

/-- Rational dot product. -/
def dotQ (xs ys : List ℚ) : ℚ :=
  (List.zipWith (fun x y => x * y) xs ys).sum

/-- `ForecastingService.weighted_moving_average_forecast`: last `window`
chronological points, outlier-filtered, combined with normalized
exponential weights. -/
noncomputable def weightedMovingAverageForecast (cfg : Cfg) (data : List HistPoint) : ℚ :=
  if data.isEmpty then 0
  else
    let sortedData := sortByDate data
    let windowData := takeLastPy cfg.movingAverageWindow sortedData
    if windowData.isEmpty then 0
    else
      let values := removeOutliers cfg (windowData.map (·.2))
      if values.isEmpty then 0
      else
        let ws := expWeights values.length
        let weights := ws.map (· / ws.sum)
        round2R (dotR values weights)

/-- Arithmetic mean of a rational list. -/
def mean (l : List ℚ) : ℚ := l.sum / (l.length : ℚ)

/-- The least-squares line `(intercept, slope)` fitted by sklearn's
`LinearRegression` on one feature: the centered-data solution, with the
minimum-norm slope 0 when the design is degenerate (all x equal). -/
def lsLine (xs ys : List ℚ) : ℚ × ℚ :=
  let xbar := mean xs
  let ybar := mean ys
  let sxx := (xs.map (fun x => (x - xbar) ^ 2)).sum
  let sxy := (List.zipWith (fun x y => (x - xbar) * (y - ybar)) xs ys).sum
  let slope := if sxx = 0 then 0 else sxy / sxx
  (ybar - slope * xbar, slope)

/-- `ForecastingService.linear_regression_forecast`: fit value against
day-offset-from-first-date, predict at `last_date + days_ahead`, clamp to
`≥ 0`, round to two decimals. -/
def linearRegressionForecast (cfg : Cfg) (daysAhead : ℤ) (data : List HistPoint) : ℚ :=
  if data.isEmpty ∨ data.length < 2 then 0
  else
    let sortedData := sortByDate data
    let firstDate := (sortedData.headD (0, 0)).1
    let xs := sortedData.map (fun p => ((p.1 - firstDate : ℤ) : ℚ))
    let ys := removeOutliers cfg (sortedData.map (·.2))
    let line := lsLine xs ys
    let lastDate := (sortedData.getLastD (0, 0)).1
    let nextDay : ℚ := ((lastDate + daysAhead - firstDate : ℤ) : ℚ)
    round2 (max 0 (line.1 + line.2 * nextDay))

/-- Solve a `k`-variable linear system presented as an augmented matrix
(each row `[a₁, …, a_k, b]`) by exact Gaussian elimination; `none` when no
pivot is available (rank-deficient system). -/
def gaussSolve : (k : ℕ) → List (List ℚ) → Option (List ℚ)
  | 0, _ => some []
  | k + 1, rows =>
    match rows.find? (fun r => r.headD 0 ≠ 0) with
    | none => none
    | some p =>
      let a := p.headD 0
      let pr := p.tail.map (· / a)
      let rest := (rows.erase p).map (fun r =>
        List.zipWith (fun x y => x - r.headD 0 * y) r.tail pr)
      match gaussSolve k rest with
      | none => none
      | some xs => some ((pr.getLastD 0 - dotQ (pr.take k) xs) :: xs)

/-- The row `[1, x, x², …, x^deg]` produced by `PolynomialFeatures`. -/
def vandermondeRow (deg : ℕ) (x : ℚ) : List ℚ :=
  (List.range (deg + 1)).map (fun j => x ^ j)

/-- Least-squares polynomial coefficients `[c₀, …, c_deg]` via the normal
equations `(VᵀV)c = Vᵀy`.  On the full-column-rank designs arising from
distinct dates this agrees with the lstsq fit that sklearn's
`LinearRegression` performs on the `PolynomialFeatures` design matrix; a
rank-deficient normal system falls back to the zero polynomial. -/
def polyFitCoeffs (deg : ℕ) (xs ys : List ℚ) : List ℚ :=
  let rows := (List.range (deg + 1)).map (fun i =>
    ((List.range (deg + 1)).map (fun j => (xs.map (fun x => x ^ (i + j))).sum))
      ++ [(List.zipWith (fun x y => x ^ i * y) xs ys).sum])
  match gaussSolve (deg + 1) rows with
  | some c => c
  | none => List.replicate (deg + 1) 0

/-- Evaluate `Σ cᵢ·xⁱ` (Horner form). -/
def polyEval (c : List ℚ) (x : ℚ) : ℚ :=
  c.foldr (fun a acc => a + x * acc) 0

/-- `ForecastingService.polynomial_regression_forecast`: polynomial
least-squares fit over day offsets, prediction clamped to `≥ 0` and
rounded.  Returns 0 with fewer than `degree + 1` points. -/
def polynomialRegressionForecast (cfg : Cfg) (daysAhead : ℤ) (degree : ℕ)
    (data : List HistPoint) : ℚ :=
  if data.isEmpty ∨ data.length < degree + 1 then 0
  else
    let sortedData := sortByDate data
    let firstDate := (sortedData.headD (0, 0)).1
    let xs := sortedData.map (fun p => ((p.1 - firstDate : ℤ) : ℚ))
    let ys := removeOutliers cfg (sortedData.map (·.2))
    let c := polyFitCoeffs degree xs ys
    let lastDate := (sortedData.getLastD (0, 0)).1
    let nextDay : ℚ := ((lastDate + daysAhead - firstDate : ℤ) : ℚ)
    round2 (max 0 (polyEval c nextDay))

/-- The `(forecast, weight)` pairs accumulated by `ensemble_forecast`:
a method's output joins the lists only if strictly positive; linear
regression is consulted only with ≥ 3 points, polynomial regression only
with ≥ 5. -/
noncomputable def ensembleComponents (cfg : Cfg) (data : List HistPoint) : List (ℚ × ℚ) :=
  let expF := exponentialSmoothingForecast cfg data
  let wmaF := weightedMovingAverageForecast cfg data
  (if 0 < expF then [(expF, (3/10 : ℚ))] else [])
    ++ (if 0 < wmaF then [(wmaF, (1/4 : ℚ))] else [])
    ++ (if 3 ≤ data.length then
          (let lrF := linearRegressionForecast cfg 1 data
           if 0 < lrF then [(lrF, (1/4 : ℚ))] else [])
        else [])
    ++ (if 5 ≤ data.length then
          (let polyF := polynomialRegressionForecast cfg 1 cfg.polynomialDegree data
           if 0 < polyF then [(polyF, (1/5 : ℚ))] else [])
        else [])

/-- `ForecastingService.ensemble_forecast` (the non-raising path of its
`try` block): renormalize the collected weights and return the rounded
weighted average, or 0 when no method contributed. -/
noncomputable def ensembleForecast (cfg : Cfg) (data : List HistPoint) : ℚ :=
  if data.isEmpty then 0
  else
    let fw := ensembleComponents cfg data
    if fw.isEmpty then 0
    else
      let totalWeight := (fw.map (·.2)).sum
      round2 ((fw.map (fun p => p.1 * (p.2 / totalWeight))).sum)

/-- `ensemble_forecast` with its exception handler: an internal failure
(injected by `fail`) falls back to the exponential-smoothing forecast. -/
noncomputable def ensembleForecastRun (fail : Bool) (cfg : Cfg) (data : List HistPoint) : ℚ :=
  if fail then exponentialSmoothingForecast cfg data else ensembleForecast cfg data

/-- `ForecastingService.generate_daily_forecast`: ensemble when enabled,
otherwise exponential smoothing; 0 on empty input. -/
noncomputable def generateDailyForecast (cfg : Cfg) (data : List HistPoint) : ℚ :=
  if data.isEmpty then 0
  else if cfg.enableEnsemble then ensembleForecast cfg data
  else exponentialSmoothingForecast cfg data

/-- An hourly sample `(hour, order_count)`. -/
abbrev HourSample := ℤ × ℤ

/-- The per-hour sample group built by `generate_hourly_forecast`
(insertion order preserved, like the dict-of-lists in the source). -/
def hourValues (data : List HourSample) (h : ℤ) : List ℤ :=
  (data.filter (fun p => p.1 = h)).map (·.2)

/-- The pre-interpolation forecast of one hour in
`generate_hourly_forecast`: outlier-filtered samples combined with the
exponential weights for ≥ 2 samples, the sample itself for exactly one,
and 0 for an hour with no data. -/
noncomputable def hourlyPreValue (cfg : Cfg) (data : List HourSample) (h : ℤ) : ℚ :=
  let values := hourValues data h
  if values.isEmpty then 0
  else
    let cleaned := removeOutliers cfg (values.map (fun v => (v : ℚ)))
    if cleaned.isEmpty then 0
    else if 1 < cleaned.length then
      let ws := expWeights cleaned.length
      let weights := ws.map (· / ws.sum)
      round2R (dotR cleaned weights)
    else round2 (cleaned.headD 0)

/-- The full 24-entry array built before gap interpolation. -/
noncomputable def hourlyPre (cfg : Cfg) (data : List HourSample) : List (ℤ × ℚ) :=
  (List.range 24).map (fun (h : ℕ) => ((h : ℤ), hourlyPreValue cfg data (h : ℤ)))

/-- `ForecastingService._interpolate_missing_hours`: an interior entry
whose value is exactly 0 and which has a positive immediate neighbour in
the *input* array becomes the rounded mean of its two input neighbours. -/
def interpolateMissingHours (forecasts : List (ℤ × ℚ)) : List (ℤ × ℚ) :=
  (List.range forecasts.length).map (fun i =>
    let e := forecasts.getD i (0, 0)
    if e.2 = 0 ∧ 0 < i ∧ i < forecasts.length - 1 then
      let prevVal := (forecasts.getD (i - 1) (0, 0)).2
      let nextVal := (forecasts.getD (i + 1) (0, 0)).2
      if 0 < prevVal ∨ 0 < nextVal then (e.1, round2 ((prevVal + nextVal) / 2))
      else (e.1, e.2)
    else (e.1, e.2))

/-- `ForecastingService.generate_hourly_forecast`: empty input short-circuits
to 24 zero entries; otherwise the 24-entry pre-array is built and gap
interpolation applied. -/
noncomputable def generateHourlyForecast (cfg : Cfg) (data : List HourSample) : List (ℤ × ℚ) :=
  if data.isEmpty then (List.range 24).map (fun (h : ℕ) => ((h : ℤ), (0 : ℚ)))
  else interpolateMissingHours (hourlyPre cfg data)

/-! ## Batch processor (app/scheduler/batch_processor.py) -/

/-- The inner loop of `BatchProcessor._generate_daily_forecast` for
`days_ahead ≥ 2`: starting from the historical series, append for
`i = 1, …, k` the synthetic point `(today + i, generate_daily_forecast(extended))`
computed from the series extended so far. -/
noncomputable def extendSynthetic (cfg : Cfg) (today : ℤ) (hist : List HistPoint) :
    ℕ → List HistPoint
  | 0 => hist
  | k + 1 =>
    let e := extendSynthetic cfg today hist k
    e ++ [(today + (k + 1 : ℕ), generateDailyForecast cfg e)]

/-- The forecast value `BatchProcessor._generate_daily_forecast` stores for
`days_ahead` days out: the plain forecast for tomorrow, and for later days
the forecast of the series extended with `days_ahead − 1` synthetic points. -/
noncomputable def storedDailyForecast (cfg : Cfg) (today : ℤ) (hist : List HistPoint)
    (daysAhead : ℕ) : ℚ :=
  if daysAhead = 1 then generateDailyForecast cfg hist
  else generateDailyForecast cfg (extendSynthetic cfg today hist (daysAhead - 1))

/-- The recursive reference points of the progressive-forecast claim:
`refPoints k = [(today+1, F 1), …, (today+k, F k)]` with
`F i = ensemble(hist ++ refPoints (i−1))`. -/
noncomputable def refPoints (cfg : Cfg) (today : ℤ) (hist : List HistPoint) :
    ℕ → List HistPoint
  | 0 => []
  | k + 1 =>
    let pts := refPoints cfg today hist k
    pts ++ [(today + (k + 1 : ℕ), ensembleForecast cfg (hist ++ pts))]

/-- The recursive reference forecast `F N` for day `N` ahead. -/
noncomputable def refForecast (cfg : Cfg) (today : ℤ) (hist : List HistPoint) (n : ℕ) : ℚ :=
  ensembleForecast cfg (hist ++ refPoints cfg today hist (n - 1))

/-! ### Data model of the two stores (app/models) -/

/-- `OrderStatus` of the read-only order store. -/
inductive PyOrderStatus
  | created | confirmed | preparing | ready | served
deriving Repr, DecidableEq

/-- A row of the read-only `orders` table, with its creation timestamp
split into calendar date (day number) and hour of day, as the batch
queries extract them. -/
structure PyOrder where
  createdDate : ℤ
  createdHour : ℤ
  status : PyOrderStatus
  totalAmount : ℚ
deriving Repr, DecidableEq

/-- A `DailyRevenueCache` row. -/
structure DailyRow where
  date : ℤ
  totalRevenue : ℚ
  orderCount : ℕ
  averageOrderValue : ℚ
deriving Repr, DecidableEq

/-- A `HourlyOrderCache` row. -/
structure HourlyRow where
  date : ℤ
  hour : ℤ
  orderCount : ℕ
deriving Repr, DecidableEq

/-- A `ForecastHistory` row (append-only). -/
structure ForecastRow where
  forecastType : String
  forecastValue : ℚ
  forecastDate : ℤ
deriving Repr, DecidableEq

/-- The analytics store: the three cache tables. -/
structure AnalyticsDB where
  daily : List DailyRow
  hourly : List HourlyRow
  forecasts : List ForecastRow
deriving Repr, DecidableEq

/-- The SERVED orders of a given date (the filter of both aggregation
queries). -/
def servedOrders (orderDb : List PyOrder) (target : ℤ) : List PyOrder :=
  orderDb.filter (fun o => o.status = PyOrderStatus.served ∧ o.createdDate = target)

/-- Update the first `DailyRevenueCache` row matching `target` in place
(the `existing` branch of the upsert). -/
def updateFirstDaily (target : ℤ) (tot : ℚ) (cnt : ℕ) (avg : ℚ) :
    List DailyRow → List DailyRow
  | [] => []
  | r :: rest =>
    if r.date = target then
      { r with totalRevenue := tot, orderCount := cnt, averageOrderValue := avg } :: rest
    else r :: updateFirstDaily target tot cnt avg rest

/-- The upsert of `_compute_daily_revenue`: overwrite the existing row for
the date, or append a fresh one. -/
def upsertDaily (rows : List DailyRow) (target : ℤ) (tot : ℚ) (cnt : ℕ) (avg : ℚ) :
    List DailyRow :=
  if rows.any (fun r => r.date = target) then updateFirstDaily target tot cnt avg rows
  else rows ++ [{ date := target, totalRevenue := tot, orderCount := cnt,
                  averageOrderValue := avg }]

/-- The summed revenue of the date's SERVED orders (`func.sum`, with SQL
NULL on no rows read as 0). -/
def dailyTotal (orderDb : List PyOrder) (target : ℤ) : ℚ :=
  ((servedOrders orderDb target).map (·.totalAmount)).sum

/-- The average order value: total / count, or 0 when there are no
orders. -/
def dailyAvg (orderDb : List PyOrder) (target : ℤ) : ℚ :=
  if 0 < (servedOrders orderDb target).length then
    dailyTotal orderDb target / ((servedOrders orderDb target).length : ℚ)
  else 0

/-- `BatchProcessor._compute_daily_revenue`: total, count and average of
the date's SERVED orders (average 0 when there are none), upserted into
the daily cache. -/
def computeDailyRevenue (orderDb : List PyOrder) (db : AnalyticsDB) (target : ℤ) :
    AnalyticsDB :=
  { db with
    daily := upsertDaily db.daily target (dailyTotal orderDb target)
      (servedOrders orderDb target).length (dailyAvg orderDb target) }

/-- The SERVED-order count of one hour of the target date (the grouped
query of `_compute_hourly_breakdown`, with absent hours read as 0). -/
def hourlyOrderCount (orderDb : List PyOrder) (target : ℤ) (h : ℤ) : ℕ :=
  (servedOrders orderDb target).countP (fun o => o.createdHour = h)

/-- Update the first `HourlyOrderCache` row matching `(target, h)`. -/
def updateFirstHourly (target h : ℤ) (cnt : ℕ) : List HourlyRow → List HourlyRow
  | [] => []
  | r :: rest =>
    if r.date = target ∧ r.hour = h then { r with orderCount := cnt } :: rest
    else r :: updateFirstHourly target h cnt rest

/-- The per-hour upsert inside `_compute_hourly_breakdown`. -/
def upsertHourly (rows : List HourlyRow) (target h : ℤ) (cnt : ℕ) : List HourlyRow :=
  if rows.any (fun r => r.date = target ∧ r.hour = h) then updateFirstHourly target h cnt rows
  else rows ++ [{ date := target, hour := h, orderCount := cnt }]

/-- `BatchProcessor._compute_hourly_breakdown`: upsert all 24 hours of the
target date, absent hours written as count 0. -/
def computeHourlyBreakdown (orderDb : List PyOrder) (db : AnalyticsDB) (target : ℤ) :
    AnalyticsDB :=
  { db with
    hourly := (List.range 24).foldl
      (fun rows (h : ℕ) =>
        upsertHourly rows target (h : ℤ) (hourlyOrderCount orderDb target (h : ℤ)))
      db.hourly }

/-! ### The transactional envelope of `run_batch_job` -/

/-- One pipeline step as the transactional envelope sees it: a function
from the pending analytics-session state to a new pending state or a
raised exception (the exception being injected by the database
environment). -/
def StepFun (ε : Type) : Type := AnalyticsDB → Except ε AnalyticsDB

/-- Sequential execution of the pipeline steps inside the `try` block:
stops at the first raised exception. -/
def runSteps {ε : Type} : List (StepFun ε) → AnalyticsDB → Except ε AnalyticsDB
  | [], s => Except.ok s
  | f :: rest, s =>
    match f s with
    | Except.ok s2 => runSteps rest s2
    | Except.error e => Except.error e

/-- Observable outcome of one `run_batch_job` invocation: the returned or
re-raised result (`ok true` = ran, `ok false` = skipped), the analytics
store after commit/rollback, whether the guard is still held by this run,
and whether the sessions were opened and closed. -/
structure BatchOutcome (ε : Type) where
  result : Except ε Bool
  store : AnalyticsDB
  lockHeld : Bool
  sessionsClosed : Bool

/-- `BatchProcessor.run_batch_job`: non-blocking guard acquisition (a held
guard means an immediate skip), the four steps run against a session whose
pending state starts at the committed store, `commit` on success installing
the pending state, `rollback` on failure discarding it and re-raising, and
the `finally` blocks closing both sessions and releasing the guard
unconditionally. -/
def runBatchJob {ε : Type} (steps : List (StepFun ε)) (lockHeld : Bool)
    (store : AnalyticsDB) : BatchOutcome ε :=
  if lockHeld then
    { result := Except.ok false, store := store, lockHeld := lockHeld, sessionsClosed := false }
  else
    match runSteps steps store with
    | Except.ok s2 =>
      { result := Except.ok true, store := s2, lockHeld := false, sessionsClosed := true }
    | Except.error e =>
      { result := Except.error e, store := store, lockHeld := false, sessionsClosed := true }

/-! ### Interleaving model of two concurrent triggers -/

/-- Control point of one triggered run: about to try the guard, inside the
pipeline, about to release, finished by observing the guard held
(`doneSkipped`), or finished after running the pipeline (`doneOk`). -/
inductive ThreadPC
  | start | working | releasing | doneSkipped | doneOk
deriving Repr, DecidableEq

/-- Shared state of two concurrently triggered runs: the process-wide
guard plus each run's control point and number of performed writes. -/
structure ConcState where
  lock : Bool
  pcA : ThreadPC
  pcB : ThreadPC
  writesA : ℕ
  writesB : ℕ
deriving Repr, DecidableEq

/-- One atomic action of the thread at control point `pc`:
`batch_lock.acquire(blocking=False)` (skip immediately and permanently if
held), the pipeline writes, and the `finally` release. -/
def threadStep (pc : ThreadPC) (lock : Bool) (writes : ℕ) : ThreadPC × Bool × ℕ :=
  match pc with
  | ThreadPC.start =>
    if lock then (ThreadPC.doneSkipped, lock, writes) else (ThreadPC.working, true, writes)
  | ThreadPC.working => (ThreadPC.releasing, lock, writes + 1)
  | ThreadPC.releasing => (ThreadPC.doneOk, false, writes)
  | ThreadPC.doneSkipped => (ThreadPC.doneSkipped, lock, writes)
  | ThreadPC.doneOk => (ThreadPC.doneOk, lock, writes)

/-- Scheduler step: `true` lets run A act, `false` lets run B act. -/
def concStep (t : Bool) (s : ConcState) : ConcState :=
  if t then
    let r := threadStep s.pcA s.lock s.writesA
    { s with pcA := r.1, lock := r.2.1, writesA := r.2.2 }
  else
    let r := threadStep s.pcB s.lock s.writesB
    { s with pcB := r.1, lock := r.2.1, writesB := r.2.2 }

/-- Run a finite schedule of interleaved atomic actions. -/
def concRun (sched : List Bool) (s : ConcState) : ConcState :=
  sched.foldl (fun s t => concStep t s) s

/-- Initial state of two concurrent triggers: guard free, both at the
acquire, no writes. -/
def concInit : ConcState :=
  { lock := false, pcA := ThreadPC.start, pcB := ThreadPC.start, writesA := 0, writesB := 0 }

/-- A run is in its critical section between successful acquire and
release. -/
def inCrit (pc : ThreadPC) : Prop := pc = ThreadPC.working ∨ pc = ThreadPC.releasing

instance (pc : ThreadPC) : Decidable (inCrit pc) := by
  unfold inCrit; infer_instance

/-! ## Basic lemmas -/

theorem round2_nonneg {q : ℚ} (h : 0 ≤ q) : 0 ≤ round2 q := by
  unfold round2
  have h0 : (0 : ℤ) ≤ ⌊q * 100 + 1/2⌋ := Int.floor_nonneg.2 (by nlinarith)
  have h1 : (0 : ℚ) ≤ (⌊q * 100 + 1/2⌋ : ℚ) := by exact_mod_cast h0
  exact div_nonneg h1 (by norm_num)

theorem round2R_nonneg {x : ℝ} (h : 0 ≤ x) : 0 ≤ round2R x := by
  unfold round2R
  have h0 : (0 : ℤ) ≤ ⌊x * 100 + 1/2⌋ := Int.floor_nonneg.2 (by nlinarith)
  have h1 : (0 : ℚ) ≤ (⌊x * 100 + 1/2⌋ : ℚ) := by exact_mod_cast h0
  exact div_nonneg h1 (by norm_num)

theorem headD_nonneg {l : List ℚ} (h : ∀ x ∈ l, 0 ≤ x) : 0 ≤ l.headD 0 := by
  cases l with
  | nil => simp
  | cons a t => exact h a (by simp)

theorem getD_nonneg {l : List ℚ} (h : ∀ x ∈ l, 0 ≤ x) (i : ℕ) : 0 ≤ l.getD i 0 := by
  induction l generalizing i with
  | nil => simp
  | cons a t ih =>
    cases i with
    | zero => exact h a (by simp)
    | succ j => simpa using ih (fun x hx => h x (by simp [hx])) j

theorem fractToNat_nonneg {p : ℚ} (hp : 0 ≤ p) : 0 ≤ p - ((Int.toNat ⌊p⌋ : ℕ) : ℚ) := by
  have hcast : ((Int.toNat ⌊p⌋ : ℕ) : ℚ) = ((⌊p⌋ : ℤ) : ℚ) := by
    exact_mod_cast congrArg (fun z => ((z : ℤ) : ℚ)) (Int.toNat_of_nonneg (Int.floor_nonneg.2 hp))
  rw [hcast]
  have := Int.floor_le p
  linarith

theorem fractToNat_le_one {p : ℚ} (hp : 0 ≤ p) : p - ((Int.toNat ⌊p⌋ : ℕ) : ℚ) ≤ 1 := by
  have hcast : ((Int.toNat ⌊p⌋ : ℕ) : ℚ) = ((⌊p⌋ : ℤ) : ℚ) := by
    exact_mod_cast congrArg (fun z => ((z : ℤ) : ℚ)) (Int.toNat_of_nonneg (Int.floor_nonneg.2 hp))
  rw [hcast]
  have := Int.lt_floor_add_one p
  linarith

theorem interp_nonneg {a b f : ℚ} (ha : 0 ≤ a) (hb : 0 ≤ b) (h0 : 0 ≤ f) (h1 : f ≤ 1) :
    0 ≤ a + (b - a) * f := by nlinarith

theorem percentile_nonneg {l : List ℚ} {q : ℚ} (hq : 0 ≤ q) (h : ∀ x ∈ l, 0 ≤ x) :
    0 ≤ percentile l q := by
  have hmem : ∀ x ∈ l.insertionSort (fun a b => a ≤ b), 0 ≤ x := by
    intro x hx
    exact h x ((List.perm_insertionSort _ l).mem_iff.mp hx)
  simp only [percentile]
  split_ifs with h0 hcond
  · exact le_refl 0
  · have hn1 : 1 ≤ (l.insertionSort (fun a b => a ≤ b)).length := Nat.one_le_iff_ne_zero.mpr h0
    have hpos : 0 ≤ q / 100 * (((l.insertionSort (fun a b => a ≤ b)).length : ℚ) - 1) := by
      have h1 : (1 : ℚ) ≤ ((l.insertionSort (fun a b => a ≤ b)).length : ℚ) := by
        exact_mod_cast hn1
      have h100 : 0 ≤ q / 100 := by positivity
      nlinarith
    exact interp_nonneg (getD_nonneg hmem _) (getD_nonneg hmem _)
      (fractToNat_nonneg hpos) (fractToNat_le_one hpos)
  · exact getD_nonneg hmem _

theorem removeOutliers_nonneg {cfg : Cfg} {l : List ℚ} (h : ∀ x ∈ l, 0 ≤ x) :
    ∀ y ∈ removeOutliers cfg l, 0 ≤ y := by
  intro y hy
  simp only [removeOutliers] at hy
  split_ifs at hy with hcond
  · exact h y hy
  · simp only [List.mem_map] at hy
    obtain ⟨x, hx, rfl⟩ := hy
    split_ifs
    · exact h x hx
    · exact percentile_nonneg (by norm_num) h

theorem removeOutliers_length (cfg : Cfg) (l : List ℚ) :
    (removeOutliers cfg l).length = l.length := by
  simp only [removeOutliers]
  split_ifs with hcond
  · rfl
  · simp

theorem sortByDate_map_nonneg {data : List HistPoint} (h : ∀ p ∈ data, 0 ≤ p.2) :
    ∀ x ∈ (sortByDate data).map (·.2), 0 ≤ x := by
  intro x hx
  simp only [List.mem_map] at hx
  obtain ⟨p, hp, rfl⟩ := hx
  exact h p ((List.perm_insertionSort _ data).mem_iff.mp hp)

theorem takeLastPy_subset {α : Type} (w : ℕ) (l : List α) : takeLastPy w l ⊆ l := by
  simp only [takeLastPy]
  split_ifs
  · exact fun x hx => hx
  · exact List.drop_subset _ _

theorem expWeights_nonneg {n : ℕ} : ∀ w ∈ expWeights n, 0 ≤ w := by
  intro w hw
  simp only [expWeights, List.mem_map] at hw
  obtain ⟨t, _, rfl⟩ := hw
  exact (Real.exp_pos _).le

theorem sum_nonneg_of_mem {l : List ℝ} (h : ∀ x ∈ l, 0 ≤ x) : 0 ≤ l.sum := by
  induction l with
  | nil => simp
  | cons a t ih =>
    simp only [List.sum_cons]
    have := h a (by simp)
    have := ih (fun x hx => h x (by simp [hx]))
    linarith

theorem dotR_nonneg {xs : List ℚ} {ws : List ℝ} (hx : ∀ x ∈ xs, 0 ≤ x)
    (hw : ∀ w ∈ ws, 0 ≤ w) : 0 ≤ dotR xs ws := by
  induction xs generalizing ws with
  | nil => simp [dotR]
  | cons a t ih =>
    cases ws with
    | nil => simp [dotR]
    | cons w tw =>
      have h1 : (0 : ℝ) ≤ (a : ℝ) * w := by
        have ha : (0 : ℚ) ≤ a := hx a (by simp)
        exact mul_nonneg (by exact_mod_cast ha) (hw w (by simp))
      have h2 : 0 ≤ dotR t tw :=
        ih (fun x hx2 => hx x (by simp [hx2])) (fun u hu => hw u (by simp [hu]))
      have hstep : dotR (a :: t) (w :: tw) = (a : ℝ) * w + dotR t tw := rfl
      rw [hstep]
      linarith

/-! ## Claim C1 -/

/-- C1 fails as stated: a series consisting of one negative value makes
`exponential_smoothing_forecast` return that value itself, which is
negative (the `len < 2` branch returns the single value unclamped). -/
theorem claim1_counterexample :
    exponentialSmoothingForecast defaultCfg [(0, -5)] < 0 := by
  norm_num [exponentialSmoothingForecast, sortByDate, removeOutliers, round2,
    defaultCfg, List.insertionSort, List.orderedInsert]

/-- C1 (amended): for every historical series whose values are all
non-negative, each of the four forecast methods returns a value ≥ 0. -/
theorem claim1_nonneg (cfg : Cfg) (daysAhead : ℤ) (degree : ℕ) (data : List HistPoint)
    (h : ∀ p ∈ data, 0 ≤ p.2) :
    0 ≤ exponentialSmoothingForecast cfg data
    ∧ 0 ≤ weightedMovingAverageForecast cfg data
    ∧ 0 ≤ linearRegressionForecast cfg daysAhead data
    ∧ 0 ≤ polynomialRegressionForecast cfg daysAhead degree data := by
  refine ⟨?_, ?_, ?_, ?_⟩
  · simp only [exponentialSmoothingForecast]
    split_ifs with h1 h2 h3
    · exact le_refl 0
    · exact round2_nonneg (headD_nonneg (removeOutliers_nonneg (sortByDate_map_nonneg h)))
    · exact round2_nonneg (le_max_left 0 _)
    · exact round2_nonneg (le_max_left 0 _)
  · simp only [weightedMovingAverageForecast]
    split_ifs with h1 h2 h3
    · exact le_refl 0
    · exact le_refl 0
    · exact le_refl 0
    · apply round2R_nonneg
      apply dotR_nonneg
      · apply removeOutliers_nonneg
        intro x hx
        simp only [List.mem_map] at hx
        obtain ⟨p, hp, rfl⟩ := hx
        exact h p ((List.perm_insertionSort _ data).mem_iff.mp
          (takeLastPy_subset _ _ hp))
      · intro w hw
        simp only [List.mem_map] at hw
        obtain ⟨u, hu, rfl⟩ := hw
        exact div_nonneg (expWeights_nonneg u hu) (sum_nonneg_of_mem expWeights_nonneg)
  · simp only [linearRegressionForecast]
    split_ifs with h1
    · exact le_refl 0
    · exact round2_nonneg (le_max_left 0 _)
  · simp only [polynomialRegressionForecast]
    split_ifs with h1
    · exact le_refl 0
    · exact round2_nonneg (le_max_left 0 _)

theorem claim1_nonneg_witness :
    (∀ p ∈ [((0 : ℤ), (100 : ℚ))], 0 ≤ p.2)
    ∧ (0 ≤ exponentialSmoothingForecast defaultCfg [(0, 100)]
       ∧ 0 ≤ weightedMovingAverageForecast defaultCfg [(0, 100)]
       ∧ 0 ≤ linearRegressionForecast defaultCfg 1 [(0, 100)]
       ∧ 0 ≤ polynomialRegressionForecast defaultCfg 1 2 [(0, 100)]) :=
  ⟨by decide, claim1_nonneg defaultCfg 1 2 [(0, 100)] (by decide)⟩

/-! ## Claim C3 -/

/-- The specification's double-exponential recurrence: level starts at the
first cleaned value, trend at second − first, the Holt update runs over
the values from the second onward, and the prediction is
`max(0, level + trend)`. -/
def holtRef (a b v0 v1 : ℚ) (rest : List ℚ) : ℚ :=
  let f := (v1 :: rest).foldl
    (fun lt v =>
      (a * v + (1 - a) * (lt.1 + lt.2),
       b * ((a * v + (1 - a) * (lt.1 + lt.2)) - lt.1) + (1 - b) * lt.2))
    (v0, v1 - v0)
  max 0 (f.1 + f.2)

/-- C3: with at least 2 values surviving the filter,
`exponential_smoothing_forecast` is exactly the rounded clamp of the
specification's recurrence applied from the second value onward. -/
theorem claim3_holt (cfg : Cfg) (data : List HistPoint) (v0 v1 : ℚ) (rest : List ℚ)
    (hv : removeOutliers cfg ((sortByDate data).map (·.2)) = v0 :: v1 :: rest) :
    exponentialSmoothingForecast cfg data = round2 (holtRef cfg.alpha cfg.beta v0 v1 rest) := by
  cases data with
  | nil => simp [sortByDate, removeOutliers, List.insertionSort] at hv
  | cons p tl =>
    have hfun : holtStep cfg = (fun (lt : ℚ × ℚ) v =>
        (cfg.alpha * v + (1 - cfg.alpha) * (lt.1 + lt.2),
         cfg.beta * ((cfg.alpha * v + (1 - cfg.alpha) * (lt.1 + lt.2)) - lt.1)
           + (1 - cfg.beta) * lt.2)) := by
      funext lt v
      simp [holtStep]
    simp only [exponentialSmoothingForecast, hv, List.isEmpty_cons, Bool.false_eq_true,
      if_false, List.length_cons, holtRef, hfun]
    rw [if_neg (by omega), if_pos (by omega)]
    simp [List.getD]

/-- C3's concrete instance: the spec's worked example
`[(2024-01-01,100),(2024-01-02,110),(2024-01-03,105)]` with α=0.3, β=0.1
forecasts exactly 125.05. -/
theorem claim3_holt_witness :
    exponentialSmoothingForecast defaultCfg [(0, 100), (1, 110), (2, 105)] = 12505/100 := by
  have hv : removeOutliers defaultCfg
      ((sortByDate [((0 : ℤ), (100 : ℚ)), (1, 110), (2, 105)]).map (·.2)) = [100, 110, 105] := by
    norm_num [removeOutliers, sortByDate, defaultCfg, List.insertionSort, List.orderedInsert]
  rw [claim3_holt defaultCfg _ 100 110 [105] hv]
  norm_num [holtRef, round2, defaultCfg]

/-! ## Claim C6 -/

/-- C6: if any pipeline step raises, the whole run's analytics changes are
discarded (the store is exactly the pre-run store), the exception is
re-raised, the sessions are closed, and the guard is released. -/
theorem claim6_rollback {ε : Type} (steps : List (StepFun ε)) (store : AnalyticsDB) (e : ε)
    (h : runSteps steps store = Except.error e) :
    runBatchJob steps false store =
      { result := Except.error e, store := store, lockHeld := false, sessionsClosed := true } := by
  simp [runBatchJob, h]

theorem claim6_rollback_witness :
    runBatchJob [fun _ => Except.error (7 : ℕ)] false ⟨[], [], []⟩ =
      { result := Except.error 7, store := ⟨[], [], []⟩, lockHeld := false,
        sessionsClosed := true } :=
  claim6_rollback _ _ _ (by simp [runSteps])

/-! ## Claim C8 -/

theorem ratFloor_eq_intFloor (q : ℚ) : q.floor = ⌊q⌋ := rfl

theorem intToNat_two : (2 : ℤ).toNat = 2 := rfl

theorem getD_map_of_lt {l : List ℚ} {i : ℕ} (h : i < l.length) (f : ℚ → ℚ) :
    (l.map f).getD i 0 = f (l.getD i 0) := by
  induction l generalizing i with
  | nil => simp at h
  | cons a t ih =>
    cases i with
    | zero => simp
    | succ j =>
      simp only [List.map_cons, List.getD_cons_succ]
      exact ih (by simpa using h)

/-- C8: the outlier filter preserves length; it is the identity when
detection is disabled or fewer than 4 samples exist; otherwise each entry
within `[Q1 − 1.5·IQR, Q3 + 1.5·IQR]` (linear-interpolation percentiles)
is kept and each entry outside is replaced by the sample median; an
internal failure returns the input unchanged. -/
theorem claim8_outliers (cfg : Cfg) (data : List ℚ) :
    (removeOutliers cfg data).length = data.length
    ∧ (cfg.outlierDetection = false ∨ data.length < 4 → removeOutliers cfg data = data)
    ∧ (cfg.outlierDetection = true → 4 ≤ data.length →
        ∀ i, i < data.length →
          (removeOutliers cfg data).getD i 0 =
            (if percentile data 25 - 3/2 * (percentile data 75 - percentile data 25)
                  ≤ data.getD i 0
                ∧ data.getD i 0
                  ≤ percentile data 75 + 3/2 * (percentile data 75 - percentile data 25)
             then data.getD i 0 else percentile data 50))
    ∧ removeOutliersRun true cfg data = data := by
  refine ⟨removeOutliers_length cfg data, ?_, ?_, rfl⟩
  · intro hdis
    simp only [removeOutliers]
    rw [if_pos]
    rcases hdis with hd | hl
    · exact Or.inl (by simp [hd])
    · exact Or.inr hl
  · intro hdet hlen i hi
    simp only [removeOutliers]
    rw [if_neg (by simp [hdet]; omega)]
    exact getD_map_of_lt hi _

theorem claim8_outliers_witness :
    (removeOutliers defaultCfg [1, 2, 3, 100]).length = 4
    ∧ (removeOutliers defaultCfg [1, 2, 3, 100]).getD 3 0 = 5/2
    ∧ removeOutliersRun true defaultCfg [1, 2, 3, 100] = [1, 2, 3, 100] := by
  obtain ⟨h1, _, h3, h4⟩ := claim8_outliers defaultCfg [1, 2, 3, 100]
  refine ⟨by simpa using h1, ?_, h4⟩
  rw [h3 rfl (by norm_num) 3 (by norm_num)]
  norm_num [percentile, List.insertionSort, List.orderedInsert, List.getD,
    ratFloor_eq_intFloor, intToNat_two, List.getElem_cons_succ, List.getElem_cons_zero]

/-! ## Claim C2 -/

/-- A two-decimal grid value: some integer number of cents. -/
def isCent (q : ℚ) : Prop := ∃ z : ℤ, q = (z : ℚ) / 100

theorem isCent_zero : isCent 0 := ⟨0, by norm_num⟩

theorem isCent_round2 (q : ℚ) : isCent (round2 q) := ⟨⌊q * 100 + 1/2⌋, rfl⟩

theorem isCent_round2R (x : ℝ) : isCent (round2R x) := ⟨⌊x * 100 + 1/2⌋, rfl⟩

theorem expForecast_isCent (cfg : Cfg) (data : List HistPoint) :
    isCent (exponentialSmoothingForecast cfg data) := by
  simp only [exponentialSmoothingForecast]
  split_ifs
  · exact isCent_zero
  · exact isCent_round2 _
  · exact isCent_round2 _
  · exact isCent_round2 _

theorem wmaForecast_isCent (cfg : Cfg) (data : List HistPoint) :
    isCent (weightedMovingAverageForecast cfg data) := by
  simp only [weightedMovingAverageForecast]
  split_ifs
  · exact isCent_zero
  · exact isCent_zero
  · exact isCent_zero
  · exact isCent_round2R _

theorem lrForecast_isCent (cfg : Cfg) (daysAhead : ℤ) (data : List HistPoint) :
    isCent (linearRegressionForecast cfg daysAhead data) := by
  simp only [linearRegressionForecast]
  split_ifs
  · exact isCent_zero
  · exact isCent_round2 _

theorem polyForecast_isCent (cfg : Cfg) (daysAhead : ℤ) (degree : ℕ) (data : List HistPoint) :
    isCent (polynomialRegressionForecast cfg daysAhead degree data) := by
  simp only [polynomialRegressionForecast]
  split_ifs
  · exact isCent_zero
  · exact isCent_round2 _

theorem isCent_pos_ge {q : ℚ} (hc : isCent q) (hp : 0 < q) : 1/100 ≤ q := by
  obtain ⟨z, rfl⟩ := hc
  have hz : 0 < z := by
    by_contra hz
    push_neg at hz
    have : ((z : ℚ)) ≤ 0 := by exact_mod_cast hz
    nlinarith
  have : (1 : ℚ) ≤ (z : ℚ) := by exact_mod_cast hz
  linarith

theorem round2_ge_cent {q : ℚ} (h : 1/100 ≤ q) : 1/100 ≤ round2 q := by
  unfold round2
  have h1 : (1 : ℤ) ≤ ⌊q * 100 + 1/2⌋ := by
    rw [Int.le_floor]
    push_cast
    linarith
  have h2 : (1 : ℚ) ≤ (⌊q * 100 + 1/2⌋ : ℚ) := by exact_mod_cast h1
  linarith

theorem ensembleComponents_mem {cfg : Cfg} {data : List HistPoint} :
    ∀ p ∈ ensembleComponents cfg data, 0 < p.1 ∧ isCent p.1 ∧ 0 < p.2 := by
  intro p hp
  simp only [ensembleComponents, List.mem_append] at hp
  rcases hp with ((hp | hp) | hp) | hp
  · split_ifs at hp with hc
    · simp only [List.mem_singleton] at hp
      subst hp
      exact ⟨hc, expForecast_isCent cfg data, by norm_num⟩
    · simp at hp
  · split_ifs at hp with hc
    · simp only [List.mem_singleton] at hp
      subst hp
      exact ⟨hc, wmaForecast_isCent cfg data, by norm_num⟩
    · simp at hp
  · split_ifs at hp with h3 hc
    · simp only [List.mem_singleton] at hp
      subst hp
      exact ⟨hc, lrForecast_isCent cfg 1 data, by norm_num⟩
    · simp at hp
    · simp at hp
  · split_ifs at hp with h5 hc
    · simp only [List.mem_singleton] at hp
      subst hp
      exact ⟨hc, polyForecast_isCent cfg 1 cfg.polynomialDegree data, by norm_num⟩
    · simp at hp
    · simp at hp

theorem sum_nonneg_of_mem_pos {l : List ℚ} (h : ∀ x ∈ l, 0 < x) : 0 ≤ l.sum := by
  induction l with
  | nil => simp
  | cons a t ih =>
    simp only [List.sum_cons]
    have ha := h a (by simp)
    have ht := ih (fun x hx => h x (by simp [hx]))
    linarith

theorem sum_pos_of_mem_pos {l : List ℚ} (hne : l ≠ []) (h : ∀ x ∈ l, 0 < x) : 0 < l.sum := by
  cases l with
  | nil => exact absurd rfl hne
  | cons a t =>
    simp only [List.sum_cons]
    have ha := h a (by simp)
    have ht := sum_nonneg_of_mem_pos (fun x hx => h x (List.mem_cons_of_mem a hx))
    linarith

theorem sum_map_le_sum_map {α : Type} {l : List α} {f g : α → ℚ}
    (h : ∀ x ∈ l, f x ≤ g x) : (l.map f).sum ≤ (l.map g).sum := by
  induction l with
  | nil => simp
  | cons a t ih =>
    simp only [List.map_cons, List.sum_cons]
    have := h a (by simp)
    have := ih (fun x hx => h x (by simp [hx]))
    linarith

/-- The renormalized weights of the included components sum to 1. -/
theorem ensemble_weights_sum_one {cfg : Cfg} {data : List HistPoint}
    (hne : ensembleComponents cfg data ≠ []) :
    ((ensembleComponents cfg data).map
      (fun p => p.2 / ((ensembleComponents cfg data).map (·.2)).sum)).sum = 1 := by
  set fw := ensembleComponents cfg data with hfw
  set t := (fw.map (·.2)).sum with ht
  have htpos : 0 < t := by
    apply sum_pos_of_mem_pos
    · intro hc
      exact hne (by simpa using List.map_eq_nil_iff.mp (hfw ▸ hc))
    · intro x hx
      simp only [List.mem_map] at hx
      obtain ⟨p, hp, rfl⟩ := hx
      exact (ensembleComponents_mem p hp).2.2
  have hsum : (fw.map (fun p => p.2 / t)).sum = (fw.map (·.2)).sum * t⁻¹ := by
    simp only [div_eq_mul_inv]
    exact List.sum_map_mul_right fw (·.2) t⁻¹
  rw [hsum, ← ht, mul_inv_cancel₀ (ne_of_gt htpos)]

/-- The combined result is at least one cent when some method contributed. -/
theorem ensemble_sum_ge_cent {cfg : Cfg} {data : List HistPoint}
    (hne : ensembleComponents cfg data ≠ []) :
    1/100 ≤ ((ensembleComponents cfg data).map
      (fun p => p.1 * (p.2 / ((ensembleComponents cfg data).map (·.2)).sum))).sum := by
  set fw := ensembleComponents cfg data with hfw
  set t := (fw.map (·.2)).sum with ht
  have htpos : 0 < t := by
    apply sum_pos_of_mem_pos
    · intro hc
      exact hne (by simpa using List.map_eq_nil_iff.mp (hfw ▸ hc))
    · intro x hx
      simp only [List.mem_map] at hx
      obtain ⟨p, hp, rfl⟩ := hx
      exact (ensembleComponents_mem p hp).2.2
  have hlow : ∀ p ∈ fw, (1/100 : ℚ) * (p.2 / t) ≤ p.1 * (p.2 / t) := by
    intro p hp
    obtain ⟨hpos, hcent, hw⟩ := ensembleComponents_mem p hp
    have h1 : 1/100 ≤ p.1 := isCent_pos_ge hcent hpos
    have h2 : 0 ≤ p.2 / t := div_nonneg hw.le htpos.le
    exact mul_le_mul_of_nonneg_right h1 h2
  have hstep := sum_map_le_sum_map hlow
  have heq : (fw.map (fun p => (1/100 : ℚ) * (p.2 / t))).sum
      = (1/100 : ℚ) * (fw.map (fun p => p.2 / t)).sum :=
    List.sum_map_mul_left fw (fun p => p.2 / t) (1/100 : ℚ)
  have hone := ensemble_weights_sum_one (hfw ▸ hne)
  rw [heq] at hstep
  rw [← hfw, ← ht] at hone
  rw [hone] at hstep
  linarith

/-- C2: the ensemble includes only strictly positive method outputs,
consults linear regression only with ≥ 3 points and polynomial regression
only with ≥ 5, renormalizes the base weights 0.30/0.25/0.25/0.20 of the
included subset to sum 1, returns the rounded weighted sum (0 exactly when
no method contributes), and falls back to exponential smoothing alone on
an internal combiner failure. -/
theorem claim2_ensemble (cfg : Cfg) (data : List HistPoint) (h : data ≠ []) :
    (ensembleComponents cfg data =
       (if 0 < exponentialSmoothingForecast cfg data
        then [(exponentialSmoothingForecast cfg data, (3/10 : ℚ))] else [])
       ++ (if 0 < weightedMovingAverageForecast cfg data
           then [(weightedMovingAverageForecast cfg data, (1/4 : ℚ))] else [])
       ++ (if 3 ≤ data.length then
             (if 0 < linearRegressionForecast cfg 1 data
              then [(linearRegressionForecast cfg 1 data, (1/4 : ℚ))] else [])
           else [])
       ++ (if 5 ≤ data.length then
             (if 0 < polynomialRegressionForecast cfg 1 cfg.polynomialDegree data
              then [(polynomialRegressionForecast cfg 1 cfg.polynomialDegree data, (1/5 : ℚ))]
              else [])
           else []))
    ∧ (∀ p ∈ ensembleComponents cfg data, 0 < p.1)
    ∧ (ensembleForecast cfg data =
        (if (ensembleComponents cfg data).isEmpty then 0
         else round2 (((ensembleComponents cfg data).map
           (fun p => p.1 * (p.2 / ((ensembleComponents cfg data).map (·.2)).sum))).sum)))
    ∧ (ensembleComponents cfg data ≠ [] →
        ((ensembleComponents cfg data).map
          (fun p => p.2 / ((ensembleComponents cfg data).map (·.2)).sum)).sum = 1)
    ∧ (ensembleForecast cfg data = 0 ↔ ensembleComponents cfg data = [])
    ∧ ensembleForecastRun true cfg data = exponentialSmoothingForecast cfg data := by
  have hA : ensembleComponents cfg data =
      (if 0 < exponentialSmoothingForecast cfg data
       then [(exponentialSmoothingForecast cfg data, (3/10 : ℚ))] else [])
      ++ (if 0 < weightedMovingAverageForecast cfg data
          then [(weightedMovingAverageForecast cfg data, (1/4 : ℚ))] else [])
      ++ (if 3 ≤ data.length then
            (if 0 < linearRegressionForecast cfg 1 data
             then [(linearRegressionForecast cfg 1 data, (1/4 : ℚ))] else [])
          else [])
      ++ (if 5 ≤ data.length then
            (if 0 < polynomialRegressionForecast cfg 1 cfg.polynomialDegree data
             then [(polynomialRegressionForecast cfg 1 cfg.polynomialDegree data, (1/5 : ℚ))]
             else [])
          else []) := by
    simp only [ensembleComponents, List.append_assoc]
  have hB : ensembleForecast cfg data =
      (if (ensembleComponents cfg data).isEmpty then 0
       else round2 (((ensembleComponents cfg data).map
         (fun p => p.1 * (p.2 / ((ensembleComponents cfg data).map (·.2)).sum))).sum)) := by
    have hde : ¬ (data.isEmpty = true) := by simp [h]
    simp only [ensembleForecast]
    rw [if_neg hde]
  refine ⟨hA, fun p hp => (ensembleComponents_mem p hp).1, hB, ?_, ?_, rfl⟩
  · exact fun hne => ensemble_weights_sum_one hne
  · constructor
    · intro h0
      by_contra hne
      have hge := ensemble_sum_ge_cent hne
      have hge2 := round2_ge_cent hge
      rw [hB] at h0
      rw [if_neg (by simpa [List.isEmpty_iff] using hne)] at h0
      rw [h0] at hge2
      norm_num at hge2
    · intro hnil
      rw [hB, if_pos (by simpa [List.isEmpty_iff] using hnil)]

theorem claim2_ensemble_witness :
    (ensembleForecast defaultCfg [(0, 100)] = 0
      ↔ ensembleComponents defaultCfg [(0, 100)] = [])
    ∧ ensembleForecastRun true defaultCfg [(0, 100)]
        = exponentialSmoothingForecast defaultCfg [(0, 100)] :=
  ⟨(claim2_ensemble defaultCfg [(0, 100)] (by simp)).2.2.2.2.1,
   (claim2_ensemble defaultCfg [(0, 100)] (by simp)).2.2.2.2.2⟩

/-! ## Claim C5 -/

theorem generateDailyForecast_eq_ensemble {cfg : Cfg} {data : List HistPoint}
    (hens : cfg.enableEnsemble = true) (hne : data ≠ []) :
    generateDailyForecast cfg data = ensembleForecast cfg data := by
  have hde : ¬ (data.isEmpty = true) := by simp [hne]
  simp [generateDailyForecast, hens, hde]

theorem extendSynthetic_eq {cfg : Cfg} {today : ℤ} {hist : List HistPoint}
    (hens : cfg.enableEnsemble = true) (hne : hist ≠ []) (k : ℕ) :
    extendSynthetic cfg today hist k = hist ++ refPoints cfg today hist k := by
  induction k with
  | zero => simp [extendSynthetic, refPoints]
  | succ n ih =>
    have hne2 : hist ++ refPoints cfg today hist n ≠ [] := by
      intro hc
      rw [List.append_eq_nil] at hc
      exact hne hc.1
    simp only [extendSynthetic, refPoints, ih,
      generateDailyForecast_eq_ensemble hens hne2, List.append_assoc]

/-- C5: for day `N` ahead (`2 ≤ N ≤ 7`) with ensemble enabled and a
non-empty history, the stored forecast of `_generate_daily_forecast`
equals the recursive reference `F(N)`: the ensemble of the history
extended with the synthetic points `(today+i, F(i))` for `i < N`. -/
theorem claim5_progressive (cfg : Cfg) (today : ℤ) (hist : List HistPoint) (n : ℕ)
    (hens : cfg.enableEnsemble = true) (hne : hist ≠ []) (h2 : 2 ≤ n) (h7 : n ≤ 7) :
    storedDailyForecast cfg today hist n = refForecast cfg today hist n := by
  have hn1 : n ≠ 1 := by omega
  simp only [storedDailyForecast, refForecast, if_neg hn1]
  rw [extendSynthetic_eq hens hne (n - 1)]
  refine generateDailyForecast_eq_ensemble hens ?_
  intro hc
  rw [List.append_eq_nil] at hc
  exact hne hc.1

theorem claim5_progressive_witness :
    storedDailyForecast defaultCfg 10 [(0, 100)] 2 = refForecast defaultCfg 10 [(0, 100)] 2 :=
  claim5_progressive defaultCfg 10 [(0, 100)] 2 rfl (by simp) (by norm_num) (by norm_num)

/-! ## Claim C4 -/

theorem getD_map_range {β : Type} (f : ℕ → β) {n i : ℕ} (hi : i < n) (d : β) :
    ((List.range n).map f).getD i d = f i := by
  rw [List.getD_eq_getElem?_getD, List.getElem?_map, List.getElem?_range hi]
  rfl

theorem hourlyPre_length (cfg : Cfg) (data : List HourSample) :
    (hourlyPre cfg data).length = 24 := by
  simp only [hourlyPre]
  rw [List.length_map, List.length_range]

theorem hourlyPre_getD (cfg : Cfg) (data : List HourSample) {i : ℕ} (hi : i < 24) :
    (hourlyPre cfg data).getD i (0, 0) = ((i : ℤ), hourlyPreValue cfg data (i : ℤ)) := by
  simp only [hourlyPre]
  rw [getD_map_range _ hi]

theorem interp_length (l : List (ℤ × ℚ)) : (interpolateMissingHours l).length = l.length := by
  simp only [interpolateMissingHours]
  rw [List.length_map, List.length_range]

theorem interp_getD {l : List (ℤ × ℚ)} {i : ℕ} (hi : i < l.length) :
    (interpolateMissingHours l).getD i (0, 0) =
      (if (l.getD i (0, 0)).2 = 0 ∧ 0 < i ∧ i < l.length - 1 then
         if 0 < (l.getD (i - 1) (0, 0)).2 ∨ 0 < (l.getD (i + 1) (0, 0)).2 then
           ((l.getD i (0, 0)).1,
             round2 (((l.getD (i - 1) (0, 0)).2 + (l.getD (i + 1) (0, 0)).2) / 2))
         else ((l.getD i (0, 0)).1, (l.getD i (0, 0)).2)
       else ((l.getD i (0, 0)).1, (l.getD i (0, 0)).2)) := by
  simp only [interpolateMissingHours]
  rw [getD_map_range _ hi]

theorem hourlyPreValue_nil (cfg : Cfg) (h : ℤ) : hourlyPreValue cfg [] h = 0 := by
  simp [hourlyPreValue, hourValues]

/-- C4: `generate_hourly_forecast` always yields 24 pairs for hours 0–23;
an interior hour whose pre-interpolation value is 0 with a positive
pre-interpolation neighbour becomes the rounded mean of the two
pre-interpolation neighbours; interior zeros with no positive neighbour
and zero boundary hours stay 0. -/
theorem claim4_hourly (cfg : Cfg) (data : List HourSample) :
    (generateHourlyForecast cfg data).length = 24
    ∧ (∀ i, i < 24 → ((generateHourlyForecast cfg data).getD i (0, 0)).1 = (i : ℤ))
    ∧ (∀ i, 0 < i → i < 23 →
        ((hourlyPre cfg data).getD i (0, 0)).2 = 0 →
        (0 < ((hourlyPre cfg data).getD (i - 1) (0, 0)).2
          ∨ 0 < ((hourlyPre cfg data).getD (i + 1) (0, 0)).2) →
        ((generateHourlyForecast cfg data).getD i (0, 0)).2 =
          round2 ((((hourlyPre cfg data).getD (i - 1) (0, 0)).2
            + ((hourlyPre cfg data).getD (i + 1) (0, 0)).2) / 2))
    ∧ (∀ i, 0 < i → i < 23 →
        ((hourlyPre cfg data).getD i (0, 0)).2 = 0 →
        ¬ (0 < ((hourlyPre cfg data).getD (i - 1) (0, 0)).2) →
        ¬ (0 < ((hourlyPre cfg data).getD (i + 1) (0, 0)).2) →
        ((generateHourlyForecast cfg data).getD i (0, 0)).2 = 0)
    ∧ (((hourlyPre cfg data).getD 0 (0, 0)).2 = 0 →
        ((generateHourlyForecast cfg data).getD 0 (0, 0)).2 = 0)
    ∧ (((hourlyPre cfg data).getD 23 (0, 0)).2 = 0 →
        ((generateHourlyForecast cfg data).getD 23 (0, 0)).2 = 0) := by
  by_cases hempty : data.isEmpty = true
  · have hdata : data = [] := List.isEmpty_iff.mp hempty
    subst hdata
    have hout : generateHourlyForecast cfg [] =
        (List.range 24).map (fun (h : ℕ) => ((h : ℤ), (0 : ℚ))) := by
      simp [generateHourlyForecast]
    have houtD : ∀ i, i < 24 →
        (generateHourlyForecast cfg []).getD i (0, 0) = ((i : ℤ), (0 : ℚ)) := by
      intro i hi
      rw [hout, getD_map_range _ hi]
    refine ⟨by rw [hout, List.length_map, List.length_range], ?_, ?_, ?_, ?_, ?_⟩
    · intro i hi
      rw [houtD i hi]
    · intro i h0 h23 _ hnb
      rw [hourlyPre_getD cfg [] (by omega), hourlyPre_getD cfg [] (by omega)] at hnb
      simp [hourlyPreValue_nil] at hnb
    · intro i h0 h23 _ _ _
      rw [houtD i (by omega)]
    · intro _
      rw [houtD 0 (by norm_num)]
    · intro _
      rw [houtD 23 (by norm_num)]
  · have hout : generateHourlyForecast cfg data = interpolateMissingHours (hourlyPre cfg data) := by
      simp [generateHourlyForecast, hempty]
    have hlen : (hourlyPre cfg data).length = 24 := hourlyPre_length cfg data
    refine ⟨by rw [hout, interp_length, hlen], ?_, ?_, ?_, ?_, ?_⟩
    · intro i hi
      rw [hout, interp_getD (by rw [hlen]; exact hi)]
      have hfst : ((hourlyPre cfg data).getD i (0, 0)).1 = (i : ℤ) := by
        rw [hourlyPre_getD cfg data hi]
      split_ifs <;> simpa using hfst
    · intro i h0 h23 hz hnb
      rw [hout, interp_getD (by rw [hlen]; omega)]
      rw [if_pos ⟨hz, h0, by rw [hlen]; omega⟩, if_pos hnb]
    · intro i h0 h23 hz hn1 hn2
      rw [hout, interp_getD (by rw [hlen]; omega)]
      rw [if_pos ⟨hz, h0, by rw [hlen]; omega⟩, if_neg (by tauto)]
      exact hz
    · intro hz
      rw [hout, interp_getD (by rw [hlen]; norm_num)]
      rw [if_neg (by simp)]
      exact hz
    · intro hz
      rw [hout, interp_getD (by rw [hlen]; norm_num)]
      rw [if_neg (by rw [hlen]; simp)]
      exact hz

theorem claim4_hourly_witness :
    (generateHourlyForecast defaultCfg [(1, 5)]).length = 24
    ∧ ((generateHourlyForecast defaultCfg [(1, 5)]).getD 2 (0, 0)).2 = round2 ((5 + 0) / 2) := by
  obtain ⟨h1, _, h3, _, _, _⟩ := claim4_hourly defaultCfg [(1, 5)]
  have hp1 : ((hourlyPre defaultCfg [(1, 5)]).getD 1 (0, 0)).2 = 5 := by
    rw [hourlyPre_getD defaultCfg [(1, 5)] (by norm_num)]
    norm_num [hourlyPreValue, hourValues, removeOutliers, defaultCfg, round2]
  have hp2 : ((hourlyPre defaultCfg [(1, 5)]).getD 2 (0, 0)).2 = 0 := by
    rw [hourlyPre_getD defaultCfg [(1, 5)] (by norm_num)]
    norm_num [hourlyPreValue, hourValues]
  have hp3 : ((hourlyPre defaultCfg [(1, 5)]).getD 3 (0, 0)).2 = 0 := by
    rw [hourlyPre_getD defaultCfg [(1, 5)] (by norm_num)]
    norm_num [hourlyPreValue, hourValues]
  refine ⟨h1, ?_⟩
  have hmain := h3 2 (by norm_num) (by norm_num) hp2 (by rw [hp1]; norm_num)
  rw [show (2 : ℕ) - 1 = 1 from rfl, show (2 : ℕ) + 1 = 3 from rfl] at hmain
  rw [hmain, hp1, hp3]

/-! ## Claim C7 -/

/-- At most one `DailyRevenueCache` row per date. -/
def dailyUnique (rows : List DailyRow) : Prop := (rows.map (·.date)).Nodup

/-- At most one `HourlyOrderCache` row per `(date, hour)` pair. -/
def hourlyUnique (rows : List HourlyRow) : Prop :=
  (rows.map (fun r => (r.date, r.hour))).Nodup

theorem updateFirstDaily_map_date (t : ℤ) (tot : ℚ) (cnt : ℕ) (avg : ℚ)
    (rows : List DailyRow) :
    (updateFirstDaily t tot cnt avg rows).map (·.date) = rows.map (·.date) := by
  induction rows with
  | nil => rfl
  | cons r rest ih =>
    simp only [updateFirstDaily]
    split_ifs with hr
    · simp
    · simp [ih]

theorem upsertDaily_unique {rows : List DailyRow} {t : ℤ} {tot : ℚ} {cnt : ℕ} {avg : ℚ}
    (h : dailyUnique rows) : dailyUnique (upsertDaily rows t tot cnt avg) := by
  unfold upsertDaily
  split_ifs with hany
  · unfold dailyUnique
    rw [updateFirstDaily_map_date]
    exact h
  · unfold dailyUnique
    rw [List.map_append]
    simp only [List.map_cons, List.map_nil]
    rw [List.nodup_append]
    refine ⟨h, by simp, ?_⟩
    intro x hx hx2
    simp only [List.mem_singleton] at hx2
    subst hx2
    apply hany
    rw [List.any_eq_true]
    simp only [List.mem_map] at hx
    obtain ⟨r, hr, hrd⟩ := hx
    exact ⟨r, hr, by simp [hrd]⟩

theorem updateFirstDaily_filter {rows : List DailyRow} {t : ℤ} {tot : ℚ} {cnt : ℕ} {avg : ℚ}
    (h : dailyUnique rows) (hany : rows.any (fun r => r.date = t) = true) :
    (updateFirstDaily t tot cnt avg rows).filter (fun r => r.date = t) =
      [{ date := t, totalRevenue := tot, orderCount := cnt, averageOrderValue := avg }] := by
  induction rows with
  | nil => simp at hany
  | cons r rest ih =>
    have hu : dailyUnique rest := by
      unfold dailyUnique at h ⊢
      simp only [List.map_cons, List.nodup_cons] at h
      exact h.2
    have hnotin : r.date ∉ rest.map (·.date) := by
      unfold dailyUnique at h
      simp only [List.map_cons, List.nodup_cons] at h
      exact h.1
    simp only [updateFirstDaily]
    split_ifs with hr
    · rw [List.filter_cons, if_pos (by simp [hr])]
      have hrest : rest.filter (fun x => decide (x.date = t)) = [] := by
        rw [List.filter_eq_nil_iff]
        intro x hx
        simp only [decide_eq_true_eq]
        intro hxt
        exact hnotin (hr ▸ hxt ▸ List.mem_map_of_mem (·.date) hx)
      rw [hrest, hr]
    · rw [List.filter_cons, if_neg (by simp [hr])]
      apply ih hu
      rw [List.any_eq_true] at hany ⊢
      obtain ⟨x, hx, hxt⟩ := hany
      simp only [decide_eq_true_eq] at hxt
      rcases List.mem_cons.mp hx with rfl | hx2
      · exact absurd hxt hr
      · exact ⟨x, hx2, by simp [hxt]⟩

theorem upsertDaily_filter {rows : List DailyRow} {t : ℤ} {tot : ℚ} {cnt : ℕ} {avg : ℚ}
    (h : dailyUnique rows) :
    (upsertDaily rows t tot cnt avg).filter (fun r => r.date = t) =
      [{ date := t, totalRevenue := tot, orderCount := cnt, averageOrderValue := avg }] := by
  unfold upsertDaily
  split_ifs with hany
  · exact updateFirstDaily_filter h hany
  · rw [List.filter_append]
    have h1 : rows.filter (fun r => decide (r.date = t)) = [] := by
      rw [List.filter_eq_nil_iff]
      intro x hx
      simp only [decide_eq_true_eq]
      intro hxt
      exact hany (List.any_eq_true.mpr ⟨x, hx, by simp [hxt]⟩)
    rw [h1]
    simp

theorem updateFirstHourly_map_key (t h : ℤ) (cnt : ℕ) (rows : List HourlyRow) :
    (updateFirstHourly t h cnt rows).map (fun r => (r.date, r.hour)) =
      rows.map (fun r => (r.date, r.hour)) := by
  induction rows with
  | nil => rfl
  | cons r rest ih =>
    simp only [updateFirstHourly]
    split_ifs with hr
    · simp
    · simp [ih]

theorem upsertHourly_unique {rows : List HourlyRow} {t h : ℤ} {cnt : ℕ}
    (hu : hourlyUnique rows) : hourlyUnique (upsertHourly rows t h cnt) := by
  unfold upsertHourly
  split_ifs with hany
  · unfold hourlyUnique
    rw [updateFirstHourly_map_key]
    exact hu
  · unfold hourlyUnique
    rw [List.map_append]
    simp only [List.map_cons, List.map_nil]
    rw [List.nodup_append]
    refine ⟨hu, by simp, ?_⟩
    intro x hx hx2
    simp only [List.mem_singleton] at hx2
    subst hx2
    apply hany
    rw [List.any_eq_true]
    simp only [List.mem_map] at hx
    obtain ⟨r, hr, hrd⟩ := hx
    refine ⟨r, hr, ?_⟩
    have h1 : r.date = t := congrArg Prod.fst hrd
    have h2 : r.hour = h := congrArg Prod.snd hrd
    simp [h1, h2]

theorem updateFirstHourly_filter {rows : List HourlyRow} {t h : ℤ} {cnt : ℕ}
    (hu : hourlyUnique rows) (hany : rows.any (fun r => r.date = t ∧ r.hour = h) = true) :
    (updateFirstHourly t h cnt rows).filter (fun r => r.date = t ∧ r.hour = h) =
      [{ date := t, hour := h, orderCount := cnt }] := by
  induction rows with
  | nil => simp at hany
  | cons r rest ih =>
    have hu2 : hourlyUnique rest := by
      unfold hourlyUnique at hu ⊢
      simp only [List.map_cons, List.nodup_cons] at hu
      exact hu.2
    have hnotin : (r.date, r.hour) ∉ rest.map (fun x => (x.date, x.hour)) := by
      unfold hourlyUnique at hu
      simp only [List.map_cons, List.nodup_cons] at hu
      exact hu.1
    simp only [updateFirstHourly]
    split_ifs with hr
    · rw [List.filter_cons, if_pos (by simp [hr.1, hr.2])]
      have hrest : rest.filter (fun x => decide (x.date = t ∧ x.hour = h)) = [] := by
        rw [List.filter_eq_nil_iff]
        intro x hx
        simp only [decide_eq_true_eq, not_and]
        intro hxt hxh
        apply hnotin
        rw [hr.1, hr.2, ← hxt, ← hxh]
        exact List.mem_map_of_mem _ hx
      rw [hrest, hr.1, hr.2]
    · rw [List.filter_cons, if_neg (by simpa using hr)]
      apply ih hu2
      rw [List.any_eq_true] at hany ⊢
      obtain ⟨x, hx, hxt⟩ := hany
      simp only [decide_eq_true_eq] at hxt
      rcases List.mem_cons.mp hx with rfl | hx2
      · exact absurd hxt hr
      · exact ⟨x, hx2, by simp [hxt.1, hxt.2]⟩

theorem upsertHourly_filter {rows : List HourlyRow} {t h : ℤ} {cnt : ℕ}
    (hu : hourlyUnique rows) :
    (upsertHourly rows t h cnt).filter (fun r => r.date = t ∧ r.hour = h) =
      [{ date := t, hour := h, orderCount := cnt }] := by
  unfold upsertHourly
  split_ifs with hany
  · exact updateFirstHourly_filter hu hany
  · rw [List.filter_append]
    have h1 : rows.filter (fun r => decide (r.date = t ∧ r.hour = h)) = [] := by
      rw [List.filter_eq_nil_iff]
      intro x hx
      simp only [decide_eq_true_eq, not_and]
      intro hxt hxh
      exact hany (List.any_eq_true.mpr ⟨x, hx, by simp [hxt, hxh]⟩)
    rw [h1]
    simp

theorem updateFirstHourly_filter_ne {rows : List HourlyRow} {t h t2 h2 : ℤ} {cnt : ℕ}
    (hne : ¬(t2 = t ∧ h2 = h)) :
    (updateFirstHourly t h cnt rows).filter (fun r => r.date = t2 ∧ r.hour = h2) =
      rows.filter (fun r => r.date = t2 ∧ r.hour = h2) := by
  induction rows with
  | nil => rfl
  | cons r rest ih =>
    simp only [updateFirstHourly]
    split_ifs with hr
    · rw [List.filter_cons, List.filter_cons]
      have hfail : ¬(r.date = t2 ∧ r.hour = h2) := by
        intro hc
        exact hne ⟨hc.1 ▸ hr.1.symm ▸ rfl, hc.2 ▸ hr.2.symm ▸ rfl⟩
      rw [if_neg (by simpa using hfail), if_neg (by simpa using hfail)]
    · rw [List.filter_cons, List.filter_cons, ih]

theorem upsertHourly_filter_ne {rows : List HourlyRow} {t h t2 h2 : ℤ} {cnt : ℕ}
    (hne : ¬(t2 = t ∧ h2 = h)) :
    (upsertHourly rows t h cnt).filter (fun r => r.date = t2 ∧ r.hour = h2) =
      rows.filter (fun r => r.date = t2 ∧ r.hour = h2) := by
  unfold upsertHourly
  split_ifs with hany
  · exact updateFirstHourly_filter_ne hne
  · rw [List.filter_append]
    have h1 : ([({ date := t, hour := h, orderCount := cnt } : HourlyRow)]).filter
        (fun r => decide (r.date = t2 ∧ r.hour = h2)) = [] := by
      simp only [List.filter_cons, List.filter_nil, decide_eq_true_eq]
      rw [if_neg]
      intro hc
      exact hne ⟨hc.1.symm, hc.2.symm⟩
    rw [h1, List.append_nil]

/-- Behaviour of the 24-hour upsert loop over an arbitrary hour list. -/
theorem foldHours_spec (orderDb : List PyOrder) (target : ℤ) (ns : List ℕ) :
    ∀ rows : List HourlyRow, hourlyUnique rows →
      (hourlyUnique (ns.foldl (fun rows (n : ℕ) =>
          upsertHourly rows target (n : ℤ) (hourlyOrderCount orderDb target (n : ℤ))) rows)
      ∧ (∀ n ∈ ns,
          (ns.foldl (fun rows (n : ℕ) =>
            upsertHourly rows target (n : ℤ) (hourlyOrderCount orderDb target (n : ℤ)))
              rows).filter (fun r => r.date = target ∧ r.hour = (n : ℤ)) =
            [{ date := target, hour := (n : ℤ),
               orderCount := hourlyOrderCount orderDb target (n : ℤ) }])
      ∧ (∀ t2 h2 : ℤ, (¬ ∃ n ∈ ns, t2 = target ∧ h2 = (n : ℤ)) →
          (ns.foldl (fun rows (n : ℕ) =>
            upsertHourly rows target (n : ℤ) (hourlyOrderCount orderDb target (n : ℤ)))
              rows).filter (fun r => r.date = t2 ∧ r.hour = h2) =
            rows.filter (fun r => r.date = t2 ∧ r.hour = h2))) := by
  induction ns with
  | nil => exact fun rows hu => ⟨hu, by simp, fun t2 h2 _ => rfl⟩
  | cons n rest ih =>
    intro rows hu
    obtain ⟨ih1, ih2, ih3⟩ :=
      ih (upsertHourly rows target (n : ℤ) (hourlyOrderCount orderDb target (n : ℤ)))
        (upsertHourly_unique hu)
    refine ⟨ih1, ?_, ?_⟩
    · intro m hm
      rcases List.mem_cons.mp hm with rfl | hm2
      · by_cases hmem : m ∈ rest
        · exact ih2 m hmem
        · rw [List.foldl_cons]
          rw [ih3 target (m : ℤ) ?_]
          · exact upsertHourly_filter hu
          · rintro ⟨k, hk, _, hmk⟩
            exact hmem (by rwa [Int.natCast_inj.mp hmk])
      · exact ih2 m hm2
    · intro t2 h2 hno
      rw [List.foldl_cons]
      rw [ih3 t2 h2 (fun ⟨k, hk, hc⟩ => hno ⟨k, List.mem_cons_of_mem n hk, hc⟩)]
      exact upsertHourly_filter_ne (fun hc => hno ⟨n, List.mem_cons_self n rest, hc⟩)

/-- C7: the aggregation step preserves the uniqueness invariants and, for
the processed date, leaves exactly one daily row carrying the latest
computed totals and exactly one hourly row per hour 0–23 carrying the
latest count — also when the date was processed before. -/
theorem claim7_upsert (orderDb : List PyOrder) (db : AnalyticsDB) (target : ℤ)
    (hd : dailyUnique db.daily) (hh : hourlyUnique db.hourly) :
    dailyUnique (computeHourlyBreakdown orderDb (computeDailyRevenue orderDb db target)
      target).daily
    ∧ hourlyUnique (computeHourlyBreakdown orderDb (computeDailyRevenue orderDb db target)
      target).hourly
    ∧ (computeHourlyBreakdown orderDb (computeDailyRevenue orderDb db target)
        target).daily.filter (fun r => r.date = target) =
        [{ date := target, totalRevenue := dailyTotal orderDb target,
           orderCount := (servedOrders orderDb target).length,
           averageOrderValue := dailyAvg orderDb target }]
    ∧ (∀ h : ℤ, 0 ≤ h → h < 24 →
        (computeHourlyBreakdown orderDb (computeDailyRevenue orderDb db target)
          target).hourly.filter (fun r => r.date = target ∧ r.hour = h) =
          [{ date := target, hour := h,
             orderCount := hourlyOrderCount orderDb target h }]) := by
  have hdaily : (computeHourlyBreakdown orderDb (computeDailyRevenue orderDb db target)
      target).daily = upsertDaily db.daily target (dailyTotal orderDb target)
        (servedOrders orderDb target).length (dailyAvg orderDb target) := by
    simp only [computeHourlyBreakdown, computeDailyRevenue]
  have hhourly : (computeHourlyBreakdown orderDb (computeDailyRevenue orderDb db target)
      target).hourly = (List.range 24).foldl (fun rows (n : ℕ) =>
        upsertHourly rows target (n : ℤ) (hourlyOrderCount orderDb target (n : ℤ)))
        db.hourly := by
    simp only [computeHourlyBreakdown, computeDailyRevenue]
  obtain ⟨hf1, hf2, _⟩ := foldHours_spec orderDb target (List.range 24) db.hourly hh
  refine ⟨?_, ?_, ?_, ?_⟩
  · rw [hdaily]
    exact upsertDaily_unique hd
  · rw [hhourly]
    exact hf1
  · rw [hdaily]
    exact upsertDaily_filter hd
  · intro h h0 h24
    rw [hhourly]
    have hn : h.toNat ∈ List.range 24 := by
      rw [List.mem_range]
      omega
    have hcast : (h.toNat : ℤ) = h := Int.toNat_of_nonneg h0
    have := hf2 h.toNat hn
    rw [hcast] at this
    exact this

theorem claim7_upsert_witness :
    dailyUnique (computeHourlyBreakdown [] (computeDailyRevenue [] ⟨[], [], []⟩ 0) 0).daily
    ∧ (computeHourlyBreakdown [] (computeDailyRevenue [] ⟨[], [], []⟩ 0) 0).daily.filter
        (fun r => r.date = 0) =
        [{ date := 0, totalRevenue := dailyTotal [] 0,
           orderCount := (servedOrders [] 0).length,
           averageOrderValue := dailyAvg [] 0 }]
    ∧ (computeHourlyBreakdown [] (computeDailyRevenue [] ⟨[], [], []⟩ 0) 0).hourly.filter
        (fun r => r.date = 0 ∧ r.hour = 5) =
        [{ date := 0, hour := 5, orderCount := hourlyOrderCount [] 0 5 }] := by
  obtain ⟨h1, _, h3, h4⟩ := claim7_upsert [] ⟨[], [], []⟩ 0 (by simp [dailyUnique])
    (by simp [hourlyUnique])
  exact ⟨h1, h3, h4 5 (by norm_num) (by norm_num)⟩

/-! ## Claim C9 -/

/-- Write bookkeeping per control point: a run has performed its writes
exactly when it is past the pipeline body. -/
def okWrites (pc : ThreadPC) (w : ℕ) : Prop :=
  match pc with
  | ThreadPC.start => w = 0
  | ThreadPC.working => w = 0
  | ThreadPC.releasing => w = 1
  | ThreadPC.doneSkipped => w = 0
  | ThreadPC.doneOk => w = 1

/-- Global invariant of two interleaved triggers: the guard is held exactly
while some run is in its critical section, the sections never overlap,
write counters track control points, and a skipped run implies the other
entered (and therefore finishes) the pipeline. -/
def ConcInv (s : ConcState) : Prop :=
  (s.lock = true ↔ (inCrit s.pcA ∨ inCrit s.pcB))
  ∧ ¬(inCrit s.pcA ∧ inCrit s.pcB)
  ∧ okWrites s.pcA s.writesA
  ∧ okWrites s.pcB s.writesB
  ∧ (s.pcA = ThreadPC.doneSkipped → inCrit s.pcB ∨ s.pcB = ThreadPC.doneOk)
  ∧ (s.pcB = ThreadPC.doneSkipped → inCrit s.pcA ∨ s.pcA = ThreadPC.doneOk)

theorem concInv_init : ConcInv concInit := by
  simp [ConcInv, concInit, inCrit, okWrites]

theorem concInv_step (t : Bool) {s : ConcState} (h : ConcInv s) : ConcInv (concStep t s) := by
  obtain ⟨h1, h2, h3, h4, h5, h6⟩ := h
  rcases s with ⟨lock, pcA, pcB, wA, wB⟩
  cases t <;> cases pcA <;> cases pcB <;> cases lock <;>
    simp_all [concStep, threadStep, ConcInv, inCrit, okWrites]

theorem concInv_run (sched : List Bool) (s : ConcState) (h : ConcInv s) :
    ConcInv (concRun sched s) := by
  induction sched generalizing s with
  | nil => exact h
  | cons t rest ih => exact ih _ (concInv_step t h)

theorem concRun_append (pre suf : List Bool) (s : ConcState) :
    concRun (pre ++ suf) s = concRun suf (concRun pre s) := by
  simp [concRun, List.foldl_append]

theorem concRun_doneA {sched : List Bool} {s : ConcState}
    (hA : s.pcA = ThreadPC.doneSkipped) :
    (concRun sched s).pcA = ThreadPC.doneSkipped
    ∧ (concRun sched s).writesA = s.writesA := by
  induction sched generalizing s with
  | nil => exact ⟨hA, rfl⟩
  | cons t rest ih =>
    have hstep : (concStep t s).pcA = ThreadPC.doneSkipped
        ∧ (concStep t s).writesA = s.writesA := by
      cases t <;> rcases s with ⟨lock, pcA, pcB, wA, wB⟩ <;>
        simp_all [concStep, threadStep]
    obtain ⟨ha, hw⟩ := ih hstep.1
    exact ⟨ha, hw.trans hstep.2⟩

theorem concRun_doneB {sched : List Bool} {s : ConcState}
    (hB : s.pcB = ThreadPC.doneSkipped) :
    (concRun sched s).pcB = ThreadPC.doneSkipped
    ∧ (concRun sched s).writesB = s.writesB := by
  induction sched generalizing s with
  | nil => exact ⟨hB, rfl⟩
  | cons t rest ih =>
    have hstep : (concStep t s).pcB = ThreadPC.doneSkipped
        ∧ (concStep t s).writesB = s.writesB := by
      cases t <;> rcases s with ⟨lock, pcA, pcB, wA, wB⟩ <;>
        simp_all [concStep, threadStep]
    obtain ⟨hb, hw⟩ := ih hstep.1
    exact ⟨hb, hw.trans hstep.2⟩

/-- C9: in every interleaving of two concurrent triggers, the critical
sections never overlap (at most one run active at any time); a run that
observes the guard held finishes immediately with zero writes and is
never resumed or retried; the two runs never both skip; and when one run
skips while the other completes, the completing run performs exactly its
one batch of writes and the skipped run none. -/
theorem claim9_mutex (sched : List Bool) :
    (∀ pre suf : List Bool, sched = pre ++ suf →
       ¬(inCrit (concRun pre concInit).pcA ∧ inCrit (concRun pre concInit).pcB))
    ∧ ((concRun sched concInit).pcA = ThreadPC.doneSkipped →
        (concRun sched concInit).writesA = 0)
    ∧ ((concRun sched concInit).pcB = ThreadPC.doneSkipped →
        (concRun sched concInit).writesB = 0)
    ∧ ¬((concRun sched concInit).pcA = ThreadPC.doneSkipped
        ∧ (concRun sched concInit).pcB = ThreadPC.doneSkipped)
    ∧ (∀ pre suf : List Bool, sched = pre ++ suf →
        (concRun pre concInit).pcA = ThreadPC.doneSkipped →
        (concRun sched concInit).pcA = ThreadPC.doneSkipped
        ∧ (concRun sched concInit).writesA = (concRun pre concInit).writesA)
    ∧ (∀ pre suf : List Bool, sched = pre ++ suf →
        (concRun pre concInit).pcB = ThreadPC.doneSkipped →
        (concRun sched concInit).pcB = ThreadPC.doneSkipped
        ∧ (concRun sched concInit).writesB = (concRun pre concInit).writesB)
    ∧ ((concRun sched concInit).pcB = ThreadPC.doneSkipped →
        (concRun sched concInit).pcA = ThreadPC.doneOk →
        (concRun sched concInit).writesA = 1 ∧ (concRun sched concInit).writesB = 0)
    ∧ ((concRun sched concInit).pcA = ThreadPC.doneSkipped →
        (concRun sched concInit).pcB = ThreadPC.doneOk →
        (concRun sched concInit).writesB = 1 ∧ (concRun sched concInit).writesA = 0) := by
  have hinv : ConcInv (concRun sched concInit) := concInv_run sched concInit concInv_init
  obtain ⟨g1, g2, g3, g4, g5, g6⟩ := hinv
  refine ⟨?_, ?_, ?_, ?_, ?_, ?_, ?_, ?_⟩
  · intro pre suf hps
    exact (concInv_run pre concInit concInv_init).2.1
  · intro hA
    rw [hA] at g3
    exact g3
  · intro hB
    rw [hB] at g4
    exact g4
  · rintro ⟨hA, hB⟩
    rcases g5 hA with hc | hc
    · rw [hB] at hc
      simp [inCrit] at hc
    · rw [hB] at hc
      exact ThreadPC.noConfusion hc
  · intro pre suf hps hA
    rw [hps, concRun_append]
    exact concRun_doneA hA
  · intro pre suf hps hB
    rw [hps, concRun_append]
    exact concRun_doneB hB
  · intro hB hA
    rw [hA] at g3
    rw [hB] at g4
    exact ⟨g3, g4⟩
  · intro hA hB
    rw [hB] at g4
    rw [hA] at g3
    exact ⟨g4, g3⟩

theorem claim9_mutex_witness :
    ((concRun [true, false, true, true] concInit).pcA = ThreadPC.doneOk
      ∧ (concRun [true, false, true, true] concInit).pcB = ThreadPC.doneSkipped)
    ∧ (concRun [true, false, true, true] concInit).writesA = 1
    ∧ (concRun [true, false, true, true] concInit).writesB = 0 := by
  have h := claim9_mutex [true, false, true, true]
  obtain ⟨_, _, _, _, _, _, h7, _⟩ := h
  have hA : (concRun [true, false, true, true] concInit).pcA = ThreadPC.doneOk := by decide
  have hB : (concRun [true, false, true, true] concInit).pcB = ThreadPC.doneSkipped := by
    decide
  obtain ⟨hw1, hw0⟩ := h7 hB hA
  exact ⟨⟨hA, hB⟩, hw1, hw0⟩

/-! ## Claim C10 -/

/-- C10 fails as stated: no series and flag values make `ensemble_forecast`
react to the linear-regression enable flag — the flag is copied in
`__init__` but never consumed, so the output is identical for any two
configurations differing only in it. -/
theorem claim10_counterexample :
    ¬ ∃ (cfg : Cfg) (b : Bool) (data : List HistPoint),
        ensembleForecast { cfg with enableLinearRegression := b } data
          ≠ ensembleForecast cfg data := by
  rintro ⟨cfg, b, data, hne⟩
  exact hne (by cases cfg; rfl)

/-- C10 (amended): the forecasting component is noninterferent in the
linear-regression enable flag — `ensemble_forecast` and
`generate_daily_forecast` produce identical output for configurations
differing only in that flag; linear regression's inclusion depends only on
the data length. -/
theorem claim10_noninterference (cfg : Cfg) (b : Bool) (data : List HistPoint) :
    ensembleForecast { cfg with enableLinearRegression := b } data
      = ensembleForecast cfg data
    ∧ generateDailyForecast { cfg with enableLinearRegression := b } data
      = generateDailyForecast cfg data := by
  cases cfg
  exact ⟨rfl, rfl⟩

end AnalyticsService
